import Mathlib

/-!
Verification of the integer-keyed binary trie from `trie.c` / `trie.h`
(IP-Trie-Database).

The C data structures are shallowly embedded as follows.

* `struct Entry_s { ival_t value; ikey_t key; }` becomes the structure
  `Entry` below.  The opaque `void *` value is modelled as a `Nat`
  identifier; keys (`ikey_t`, i.e. `unsigned int`) are modelled as `Nat`
  with the bound `key < 2 ^ 32` carried where it matters.
* A C child pointer `Node` is either `NULL` or points to a
  `struct Node_s { Entry entry; Node left; Node right; }`.  The inductive
  type `ONode` merges the pointer and the struct: `ONode.nil` is the
  `NULL` pointer and `ONode.node entry left right` is a node, where
  `entry : Option Entry` models the possibly-NULL entry pointer.
* `struct Trie_s` becomes `TrieS` with the `root` node and the three
  `size_t` counters `num_nodes`, `leaf_nodes`, `height`.  The two callback
  function pointers (`ibt_show_value_w`, `ibt_delete_entry`) are opaque
  I/O; traversal functions below return the list of entries the callbacks
  would be invoked on, in invocation order.
* Fallible / undefined behaviour is made explicit with `Option`: a C
  execution that dereferences a NULL pointer or never terminates is
  modelled as `none`.
-/

/-- `const size_t BITSPERWORD = 32` from `trie.c`. -/
def BITSPERWORD : Nat := 32

/-- `struct Entry_s` from `trie.h`: an (opaque value, key) pair. -/
structure Entry where
  value : Nat
  key : Nat
deriving DecidableEq

/-- A possibly-NULL pointer to a `struct Node_s` from `trie.c`.
`nil` is the NULL pointer; `node e l r` is a node whose `entry` field is
`e` (a possibly-NULL `Entry` pointer) and whose children are `l`, `r`. -/
inductive ONode where
  | nil : ONode
  | node (entry : Option Entry) (left right : ONode) : ONode
deriving DecidableEq

/-- `struct Trie_s` from `trie.c` (the two callback pointers are opaque
I/O and are modelled away; see the module docstring). -/
structure TrieS where
  root : ONode
  num_nodes : Nat
  leaf_nodes : Nat
  height : Nat
deriving DecidableEq

/-- `ibt_create`: a fresh trie with NULL root and all counters zero.
(The `malloc` failure branch returns NULL to the caller and creates no
trie at all, so it does not appear in the state space.) -/
def ibt_create : TrieS :=
  { root := .nil, num_nodes := 0, leaf_nodes := 0, height := 0 }

/-- `ibt_make_node`: a fresh node with all fields NULL. -/
def ibt_make_node : ONode := .node none .nil .nil

/-- `ibt_make_leaf`: a node holding `entry` and no children. -/
def ibt_make_leaf (entry : Entry) : ONode := .node (some entry) .nil .nil

/-- `ibt_make_entry`: a fresh entry with the given key and value. -/
def ibt_make_entry (key value : Nat) : Entry := { key := key, value := value }

/-- The loop body of `ibt_make_branch` from `trie.c`.  The C loop runs
with a shrinking `mask`; each iteration either descends (`mask >>= 1`,
where `0 < mask` strictly decreases) or returns at the first diverging
bit.  Once `mask = 0` both tested bits are `0` forever and the C loop
never terminates, which is modelled as `none`.  The `fuel` argument is
only a termination measure: since `mask` strictly decreases while
non-zero, `mask + 1` units of fuel (supplied by `ibt_make_branch` below)
are never exhausted before the `mask = 0` check fires, so `fuel` never
changes the computed result.

Returns `(subtree, node-count increment, branch-height increment)`:
the subtree that the C code hangs below the converted leaf node, and the
amounts added through the `nc` and `bh` out-parameters. -/
def mbLoop : Nat → Nat → Nat → Nat → Nat → Entry → Option (ONode × Nat × Nat)
  | 0, _, _, _, _, _ => none
  | fuel + 1, key1, key2, mask, val1, entry2 =>
    if mask = 0 then none
    else
      let bit1 := key1 &&& mask
      let bit2 := key2 &&& mask
      if bit1 = bit2 then
        match mbLoop fuel key1 key2 (mask >>> 1) val1 entry2 with
        | none => none
        | some (sub, nc, bh) =>
          if bit1 = 0 then some (.node none sub .nil, nc + 1, bh + 1)
          else some (.node none .nil sub, nc + 1, bh + 1)
      else
        if bit1 = 0 then
          some (.node none (ibt_make_leaf (ibt_make_entry key1 val1))
            (ibt_make_leaf entry2), 2, 1)
        else
          some (.node none (ibt_make_leaf entry2)
            (ibt_make_leaf (ibt_make_entry key1 val1)), 2, 1)

/-- `ibt_make_branch` from `trie.c`: starting from a former leaf node
(whose entry has just been set to NULL), build the chain of single-child
branch nodes along the bits where `key1` and `key2` agree, ending in two
fresh leaves at the first diverging bit.  Returns the subtree rooted at
that node together with the increments to `*nc` and `*bh`. -/
def ibt_make_branch (key1 key2 mask val1 : Nat) (entry2 : Entry) :
    Option (ONode × Nat × Nat) :=
  mbLoop (mask + 1) key1 key2 mask val1 entry2

/-- `ibt_insert_iter` from `trie.c`.  Descends from `n` with the current
`mask`, returning the rewritten subtree together with the increments made
through `&trie->num_nodes` and the `bh` pointer.  `none` models the C
executions that crash (NULL `cur` or a childless node with NULL entry)
or never terminate (inside `ibt_make_branch`).  The C tests
`cur->left == NULL` / `cur->right == NULL` are expanded into the four
child-shape patterns below (both absent, only left, only right, both
present); the branches are verbatim otherwise. -/
def ibt_insert_iter : ONode → Nat → Nat → Nat → Option (ONode × Nat × Nat)
  | .nil, _, _, _ => none
  | .node e .nil .nil, key, value, mask =>
    match e with
    | none => none
    | some en =>
      if key ≠ en.key then
        ibt_make_branch key en.key mask value en
      else
        some (.node (some en) .nil .nil, 0, 0)
  | .node e .nil (.node a b c), key, value, mask =>
    if key &&& mask = 0 then
      some (.node e (ibt_make_leaf (ibt_make_entry key value)) (.node a b c), 1, 1)
    else
      match ibt_insert_iter (.node a b c) key value (mask >>> 1) with
      | none => none
      | some (r', nc, bh) => some (.node e .nil r', nc, bh + 1)
  | .node e (.node a b c) .nil, key, value, mask =>
    if key &&& mask = 0 then
      match ibt_insert_iter (.node a b c) key value (mask >>> 1) with
      | none => none
      | some (l', nc, bh) => some (.node e l' .nil, nc, bh + 1)
    else
      some (.node e (.node a b c) (ibt_make_leaf (ibt_make_entry key value)), 1, 1)
  | .node e (.node a b c) (.node d f g), key, value, mask =>
    if key &&& mask = 0 then
      match ibt_insert_iter (.node a b c) key value (mask >>> 1) with
      | none => none
      | some (l', nc, bh) => some (.node e l' (.node d f g), nc, bh + 1)
    else
      match ibt_insert_iter (.node d f g) key value (mask >>> 1) with
      | none => none
      | some (r', nc, bh) => some (.node e (.node a b c) r', nc, bh + 1)

/-- `ibt_insert` from `trie.c`: bump `leaf_nodes` unconditionally; an
empty trie gets a root leaf with `height = 1`, `num_nodes = 1`; otherwise
run the iterative descent starting from `bh = 1` and fold its increments
into the counters, raising `height` to `bh` if `bh` is larger. -/
def ibt_insert (t : TrieS) (key value : Nat) : Option TrieS :=
  match t.root with
  | .nil =>
    some { root := ibt_make_leaf (ibt_make_entry key value),
           num_nodes := 1, leaf_nodes := t.leaf_nodes + 1, height := 1 }
  | .node e l r =>
    match ibt_insert_iter (.node e l r) key value (1 <<< (BITSPERWORD - 1)) with
    | none => none
    | some (n', nc, bhinc) =>
      let bh := 1 + bhinc
      some { root := n', num_nodes := t.num_nodes + nc,
             leaf_nodes := t.leaf_nodes + 1,
             height := if bh > t.height then bh else t.height }

/-- The `char mode` argument (`'l'` / `'r'`) of `ibt_closest_match_rec`. -/
inductive Bias where
  | l : Bias
  | r : Bias
deriving DecidableEq

/-- `ibt_closest_match_rec` from `trie.c`: biased descent after the exact
search diverged.  Returns the entry of the reached childless node
(`none` models the NULL-dereference on a NULL `node` or a childless node
whose entry pointer is NULL). -/
def ibt_closest_match_rec : ONode → Bias → Option Entry
  | .nil, _ => none
  | .node e .nil .nil, _ => e
  | .node _ l r, .l =>
    match l with
    | .nil => ibt_closest_match_rec r .l
    | .node a b c => ibt_closest_match_rec (.node a b c) .l
  | .node _ l r, .r =>
    match r with
    | .nil => ibt_closest_match_rec l .r
    | .node a b c => ibt_closest_match_rec (.node a b c) .r

/-- `ibt_search_rec` from `trie.c`: exact bit descent, diverting to
`ibt_closest_match_rec` (with the bias recording which child was
missing) as soon as the required child is absent.  As in
`ibt_insert_iter`, the NULL-child tests are expanded into the four
child-shape patterns. -/
def ibt_search_rec : ONode → Nat → Nat → Option Entry
  | .nil, _, _ => none
  | .node e .nil .nil, _, _ => e
  | .node _ .nil (.node a b c), key, mask =>
    if key &&& mask = 0 then
      ibt_closest_match_rec (.node a b c) .l
    else
      ibt_search_rec (.node a b c) key (mask >>> 1)
  | .node _ (.node a b c) .nil, key, mask =>
    if key &&& mask = 0 then
      ibt_search_rec (.node a b c) key (mask >>> 1)
    else
      ibt_closest_match_rec (.node a b c) .r
  | .node _ (.node a b c) (.node d f g), key, mask =>
    if key &&& mask = 0 then
      ibt_search_rec (.node a b c) key (mask >>> 1)
    else
      ibt_search_rec (.node d f g) key (mask >>> 1)

/-- Outcome of `ibt_search`.  `ok en` is a normal return of `en`;
`emptyTrieError` is the NULL-root branch, in which the C code prints
"error: cannot query an empty trie", destroys the whole trie with
`ibt_destroy`, and terminates the process via `exit(EXIT_FAILURE)` —
no entry is ever returned on that path. -/
inductive SearchResult where
  | ok (en : Entry) : SearchResult
  | emptyTrieError : SearchResult
deriving DecidableEq

/-- `ibt_search` from `trie.c`.  The outer `Option` models crashing
executions (NULL dereference inside malformed trees); `some` carries the
observable outcome. -/
def ibt_search (t : TrieS) (key : Nat) : Option SearchResult :=
  match t.root with
  | .nil => some .emptyTrieError
  | .node e l r =>
    (ibt_search_rec (.node e l r) key (1 <<< (BITSPERWORD - 1))).map .ok

/-- `ibt_size` from `trie.c`: returns the `leaf_nodes` counter. -/
def ibt_size (t : TrieS) : Nat := t.leaf_nodes

/-- The `size_t` modulus: all trie counters are 64-bit unsigned. -/
def SIZE_T_MOD : Nat := 2 ^ 64

/-- `ibt_node_count` from `trie.c`: the `size_t` subtraction
`num_nodes - leaf_nodes`, i.e. subtraction modulo `2 ^ 64`. -/
def ibt_node_count (t : TrieS) : Nat :=
  (((t.num_nodes : Int) - (t.leaf_nodes : Int)) % (SIZE_T_MOD : Int)).toNat

/-- `ibt_height` from `trie.c`: returns the `height` counter. -/
def ibt_height (t : TrieS) : Nat := t.height

/-- `ibt_show_rec` from `trie.c`: in-order traversal (left subtree, this
node's entry if non-NULL, right subtree).  Modelled as the list of
entries passed to `ibt_show_value` (hence to the user display callback),
in invocation order. -/
def ibt_show_rec : ONode → List Entry
  | .nil => []
  | .node e l r => ibt_show_rec l ++ e.toList ++ ibt_show_rec r

/-- `ibt_show` from `trie.c`: in-order traversal from the root. -/
def ibt_show (t : TrieS) : List Entry := ibt_show_rec t.root

/-- The keys stored in a subtree, in in-order traversal order. -/
def keys (n : ONode) : List Nat := (ibt_show_rec n).map Entry.key

/-- The entries sitting at childless (leaf) nodes of a subtree. -/
def leafEntries : ONode → List Entry
  | .nil => []
  | .node e .nil .nil => e.toList
  | .node _ l r => leafEntries l ++ leafEntries r

/-- Structural invariant of the tries built by `ibt_create` /
`ibt_insert`, indexed by the number `i` of key bits still unexamined at
this depth (the root has `i = 32`; the current mask is `2 ^ (i - 1)`):
every node is a leaf (entry present, no children, key in `ikey_t`
range), or a branch (no entry, at least one child) splitting on bit
`i - 1`: keys on the left have that bit clear, keys on the right have it
set. -/
inductive TrieInv : ONode → Nat → Prop where
  | nil (i : Nat) : TrieInv .nil i
  | leaf (en : Entry) (i : Nat) (hk : en.key < 2 ^ 32) :
      TrieInv (.node (some en) .nil .nil) i
  | branch (l r : ONode) (i : Nat)
      (hne : l ≠ .nil ∨ r ≠ .nil)
      (hl : ∀ k ∈ keys l, k.testBit i = false)
      (hr : ∀ k ∈ keys r, k.testBit i = true)
      (hIl : TrieInv l i) (hIr : TrieInv r i) :
      TrieInv (.node none l r) (i + 1)

/-- The trie states reachable through the public interface: `ibt_create`
followed by any sequence of successful `ibt_insert` calls with keys in
the `ikey_t` range. -/
inductive Reachable : TrieS → Prop where
  | create : Reachable ibt_create
  | insert (t t' : TrieS) (key value : Nat) :
      Reachable t → key < 2 ^ 32 → ibt_insert t key value = some t' →
      Reachable t'

/-- The leaf-or-branch shape predicate stated by the specification:
every node either holds an entry and has both children absent, or holds
no entry and has at least one child. -/
def WellShaped : ONode → Prop
  | .nil => True
  | .node e l r =>
      ((e.isSome = true ∧ l = .nil ∧ r = .nil) ∨
        (e = none ∧ (l ≠ .nil ∨ r ≠ .nil))) ∧
      WellShaped l ∧ WellShaped r

/-- Sample state: fresh trie. -/
def s0 : TrieS := ibt_create

/-- Sample state: key `0x00000001` inserted into a fresh trie. -/
def s1 : TrieS := (ibt_insert s0 1 10).getD s0

/-- Sample state: keys `0x00000001` then `0x00000003` (the height example
from the specification, section 8). -/
def s2 : TrieS := (ibt_insert s1 3 20).getD s0

/-- Sample state: key 7 inserted once. -/
def d1 : TrieS := (ibt_insert s0 7 70).getD s0

/-- Sample state: key 7 inserted twice. -/
def d2 : TrieS := (ibt_insert d1 7 71).getD s0

/-- Sample state: key 7 inserted three times. -/
def d3 : TrieS := (ibt_insert d2 7 72).getD s0

/-- Sample state: key 0 inserted once. -/
def z1 : TrieS := (ibt_insert s0 0 100).getD s0

/-- Sample state: keys 0 then 1 (divergence at bit 0, the longest
possible branch chain). -/
def z2 : TrieS := (ibt_insert z1 1 101).getD s0

theorem keys_nil : keys .nil = [] := rfl

theorem keys_node_none (l r : ONode) :
    keys (.node none l r) = keys l ++ keys r := by
  simp [keys, ibt_show_rec]

theorem keys_node_some (en : Entry) (l r : ONode) :
    keys (.node (some en) l r) = keys l ++ en.key :: keys r := by
  simp [keys, ibt_show_rec]

theorem keys_leaf (en : Entry) :
    keys (.node (some en) .nil .nil) = [en.key] := by
  simp [keys_node_some, keys_nil]

theorem pow2_shiftRight (j : Nat) : (2 ^ (j + 1)) >>> 1 = 2 ^ j := by
  rw [Nat.shiftRight_eq_div_pow, pow_one, pow_succ]
  omega

theorem and_pow2_eq_zero_iff (k j : Nat) :
    k &&& 2 ^ j = 0 ↔ k.testBit j = false := by
  rw [Nat.and_two_pow]
  rcases h : k.testBit j <;> simp [h, (Nat.two_pow_pos j).ne']

theorem and_pow2_eq_iff (k1 k2 j : Nat) :
    k1 &&& 2 ^ j = k2 &&& 2 ^ j ↔ k1.testBit j = k2.testBit j := by
  have e1 := Nat.and_two_pow k1 j
  have e2 := Nat.and_two_pow k2 j
  rcases h1 : k1.testBit j <;> rcases h2 : k2.testBit j <;>
    simp [h1, h2] at e1 e2 <;>
      simp [e1, e2, (Nat.two_pow_pos j).ne, (Nat.two_pow_pos j).ne']

theorem div_pow_step (k j : Nat) :
    k / 2 ^ j = 2 * (k / 2 ^ (j + 1)) + (k.testBit j).toNat := by
  have h2 : k / 2 ^ (j + 1) = k / 2 ^ j / 2 := by
    rw [Nat.div_div_eq_div_mul, pow_succ]
  have hb : (k.testBit j).toNat = k / 2 ^ j % 2 := by
    rw [Nat.testBit_to_div_mod]
    rcases Nat.mod_two_eq_zero_or_one (k / 2 ^ j) with h | h <;> simp [h]
  rw [h2, hb]
  omega

theorem div_pow_eq_of_testBit_eq {k1 k2 j : Nat}
    (h : k1 / 2 ^ (j + 1) = k2 / 2 ^ (j + 1))
    (hb : k1.testBit j = k2.testBit j) : k1 / 2 ^ j = k2 / 2 ^ j := by
  rw [div_pow_step k1 j, div_pow_step k2 j, h, hb]

theorem lt_of_testBit_split {k1 k2 j : Nat}
    (h : k1 / 2 ^ (j + 1) = k2 / 2 ^ (j + 1))
    (h1 : k1.testBit j = false) (h2 : k2.testBit j = true) : k1 < k2 := by
  refine Nat.lt_of_div_lt_div (c := 2 ^ j) ?_
  rw [div_pow_step k1 j, div_pow_step k2 j, h, h1, h2]
  simp

theorem keys_lt {n : ONode} {i : Nat} (h : TrieInv n i) :
    ∀ k ∈ keys n, k < 2 ^ 32 := by
  induction h with
  | nil => simp [keys_nil]
  | leaf en i hk => simpa [keys_leaf] using hk
  | branch l r i hne hl hr hIl hIr ihl ihr =>
    intro k hk
    rw [keys_node_none] at hk
    rcases List.mem_append.mp hk with h | h
    · exact ihl k h
    · exact ihr k h

theorem trieInv_wellShaped {n : ONode} {i : Nat} (h : TrieInv n i) :
    WellShaped n := by
  induction h with
  | nil => trivial
  | leaf en i hk => exact ⟨Or.inl ⟨rfl, rfl, rfl⟩, trivial, trivial⟩
  | branch l r i hne hl hr hIl hIr ihl ihr => exact ⟨Or.inr ⟨rfl, hne⟩, ihl, ihr⟩

theorem leafEntries_nil : leafEntries .nil = [] := rfl

theorem leafEntries_leaf (e : Option Entry) :
    leafEntries (.node e .nil .nil) = e.toList := rfl

theorem closest_match_spec {n : ONode} {i : Nat} (h : TrieInv n i) :
    ∀ b : Bias, n ≠ .nil →
    ∃ en, ibt_closest_match_rec n b = some en ∧
      en ∈ leafEntries n ∧ en ∈ ibt_show_rec n := by
  induction h with
  | nil => intro b hne; exact absurd rfl hne
  | leaf en i hk =>
    intro b hne
    refine ⟨en, ?_, by simp [leafEntries_leaf], by simp [ibt_show_rec]⟩
    cases b <;> rfl
  | branch l r i hne hl hr hIl hIr ihl ihr =>
    intro b hne2
    cases b
    case l =>
      cases l with
      | nil =>
        have hrne : r ≠ .nil := by
          rcases hne with h | h
          · exact absurd rfl h
          · exact h
        cases r with
        | nil => exact absurd rfl hrne
        | node a b c =>
          obtain ⟨en, he, hm1, hm2⟩ := ihr Bias.l (by simp)
          exact ⟨en, by simp [ibt_closest_match_rec, he],
            by simpa [leafEntries] using hm1,
            by simpa [ibt_show_rec] using hm2⟩
      | node a b c =>
        obtain ⟨en, he, hm1, hm2⟩ := ihl Bias.l (by simp)
        refine ⟨en, by simp [ibt_closest_match_rec, he], ?_, ?_⟩
        · cases r with
          | nil => simpa [leafEntries] using hm1
          | node a2 b2 c2 =>
            rw [show leafEntries (.node none (.node a b c) (.node a2 b2 c2)) =
              leafEntries (.node a b c) ++ leafEntries (.node a2 b2 c2) from rfl]
            exact List.mem_append_left _ hm1
        · simp only [ibt_show_rec]
          exact List.mem_append_left _ (List.mem_append_left _ hm2)
    case r =>
      cases r with
      | nil =>
        have hlne : l ≠ .nil := by
          rcases hne with h | h
          · exact h
          · exact absurd rfl h
        cases l with
        | nil => exact absurd rfl hlne
        | node a b c =>
          obtain ⟨en, he, hm1, hm2⟩ := ihl Bias.r (by simp)
          refine ⟨en, by simp [ibt_closest_match_rec, he], ?_, ?_⟩
          · simpa [leafEntries] using hm1
          · simp only [ibt_show_rec]
            exact List.mem_append_left _ (List.mem_append_left _ hm2)
      | node a b c =>
        obtain ⟨en, he, hm1, hm2⟩ := ihr Bias.r (by simp)
        refine ⟨en, by simp [ibt_closest_match_rec, he], ?_, ?_⟩
        · cases l with
          | nil => simpa [leafEntries] using hm1
          | node a2 b2 c2 =>
            rw [show leafEntries (.node none (.node a2 b2 c2) (.node a b c)) =
              leafEntries (.node a2 b2 c2) ++ leafEntries (.node a b c) from rfl]
            exact List.mem_append_right _ hm1
        · simp only [ibt_show_rec]
          exact List.mem_append_right _ hm2

theorem search_rec_total {n : ONode} {i : Nat} (h : TrieInv n i) :
    ∀ (key m : Nat), n ≠ .nil →
    ∃ en, ibt_search_rec n key m = some en ∧
      en ∈ leafEntries n ∧ en ∈ ibt_show_rec n := by
  induction h with
  | nil => intro key m hne; exact absurd rfl hne
  | leaf en i hk =>
    intro key m hne
    exact ⟨en, rfl, by simp [leafEntries_leaf], by simp [ibt_show_rec]⟩
  | branch l r i hne hl hr hIl hIr ihl ihr =>
    intro key m hne2
    by_cases hbit : key &&& m = 0
    · cases l with
      | nil =>
        have hrne : r ≠ .nil := by
          rcases hne with h | h
          · exact absurd rfl h
          · exact h
        cases r with
        | nil => exact absurd rfl hrne
        | node a b c =>
          obtain ⟨en, he, hm1, hm2⟩ := closest_match_spec hIr Bias.l (by simp)
          exact ⟨en, by simp [ibt_search_rec, hbit, he],
            by simpa [leafEntries] using hm1,
            by simpa [ibt_show_rec] using hm2⟩
      | node a b c =>
        obtain ⟨en, he, hm1, hm2⟩ := ihl key (m >>> 1) (by simp)
        cases r with
        | nil =>
          refine ⟨en, by simp [ibt_search_rec, hbit, he], ?_, ?_⟩
          · simpa [leafEntries] using hm1
          · simp only [ibt_show_rec]
            exact List.mem_append_left _ (List.mem_append_left _ hm2)
        | node a2 b2 c2 =>
          refine ⟨en, by simp [ibt_search_rec, hbit, he], ?_, ?_⟩
          · rw [show leafEntries (.node none (.node a b c) (.node a2 b2 c2)) =
              leafEntries (.node a b c) ++ leafEntries (.node a2 b2 c2) from rfl]
            exact List.mem_append_left _ hm1
          · simp only [ibt_show_rec]
            exact List.mem_append_left _ (List.mem_append_left _ hm2)
    · cases r with
      | nil =>
        have hlne : l ≠ .nil := by
          rcases hne with h | h
          · exact h
          · exact absurd rfl h
        cases l with
        | nil => exact absurd rfl hlne
        | node a b c =>
          obtain ⟨en, he, hm1, hm2⟩ := closest_match_spec hIl Bias.r (by simp)
          refine ⟨en, by simp [ibt_search_rec, hbit, he], ?_, ?_⟩
          · simpa [leafEntries] using hm1
          · simp only [ibt_show_rec]
            exact List.mem_append_left _ (List.mem_append_left _ hm2)
      | node a b c =>
        obtain ⟨en, he, hm1, hm2⟩ := ihr key (m >>> 1) (by simp)
        cases l with
        | nil =>
          refine ⟨en, by simp [ibt_search_rec, hbit, he], ?_, ?_⟩
          · simpa [leafEntries] using hm1
          · simp only [ibt_show_rec]
            exact List.mem_append_right _ hm2
        | node a2 b2 c2 =>
          refine ⟨en, by simp [ibt_search_rec, hbit, he], ?_, ?_⟩
          · rw [show leafEntries (.node none (.node a2 b2 c2) (.node a b c)) =
              leafEntries (.node a2 b2 c2) ++ leafEntries (.node a b c) from rfl]
            exact List.mem_append_right _ hm1
          · simp only [ibt_show_rec]
            exact List.mem_append_right _ hm2

theorem search_rec_finds : ∀ {n : ONode} {i : Nat}, TrieInv n i → ∀ {key : Nat},
    key ∈ keys n → (∀ k ∈ keys n, k / 2 ^ i = key / 2 ^ i) →
    ∀ m : Nat, (∀ j, i = j + 1 → m = 2 ^ j) →
    ∃ en, ibt_search_rec n key m = some en ∧ en.key = key ∧
      en ∈ ibt_show_rec n := by
  intro n i h
  induction h with
  | nil => intro key hmem _ _ _; simp [keys_nil] at hmem
  | leaf en i hk =>
    intro key hmem _ m _
    have hkey : key = en.key := List.mem_singleton.mp (by rwa [keys_leaf] at hmem)
    exact ⟨en, rfl, hkey.symm, by simp [ibt_show_rec]⟩
  | branch l r i hne hl hr hIl hIr ihl ihr =>
    intro key hmem hagree m hm
    have hmask : m = 2 ^ i := hm i rfl
    subst hmask
    rw [keys_node_none] at hmem
    rcases List.mem_append.mp hmem with hmm | hmm
    · have hb : key.testBit i = false := hl key hmm
      have hbit : key &&& 2 ^ i = 0 := (and_pow2_eq_zero_iff key i).mpr hb
      have hlagree : ∀ k ∈ keys l, k / 2 ^ i = key / 2 ^ i := by
        intro k hk
        exact div_pow_eq_of_testBit_eq
          (hagree k (by rw [keys_node_none]; exact List.mem_append_left _ hk))
          (by rw [hl k hk, hb])
      have hmrec : ∀ j, i = j + 1 → (2 ^ i) >>> 1 = 2 ^ j := by
        intro j hj; subst hj; exact pow2_shiftRight j
      cases l with
      | nil => simp [keys_nil] at hmm
      | node a b c =>
        obtain ⟨en, he, hkey, hmem2⟩ := ihl hmm hlagree ((2 ^ i) >>> 1) hmrec
        cases r with
        | nil =>
          refine ⟨en, by simp [ibt_search_rec, hbit, he], hkey, ?_⟩
          simp only [ibt_show_rec]
          exact List.mem_append_left _ (List.mem_append_left _ hmem2)
        | node d f g =>
          refine ⟨en, by simp [ibt_search_rec, hbit, he], hkey, ?_⟩
          simp only [ibt_show_rec]
          exact List.mem_append_left _ (List.mem_append_left _ hmem2)
    · have hb : key.testBit i = true := hr key hmm
      have hbit : ¬key &&& 2 ^ i = 0 := by
        rw [and_pow2_eq_zero_iff]; simp [hb]
      have hragree : ∀ k ∈ keys r, k / 2 ^ i = key / 2 ^ i := by
        intro k hk
        exact div_pow_eq_of_testBit_eq
          (hagree k (by rw [keys_node_none]; exact List.mem_append_right _ hk))
          (by rw [hr k hk, hb])
      have hmrec : ∀ j, i = j + 1 → (2 ^ i) >>> 1 = 2 ^ j := by
        intro j hj; subst hj; exact pow2_shiftRight j
      cases r with
      | nil => simp [keys_nil] at hmm
      | node a b c =>
        obtain ⟨en, he, hkey, hmem2⟩ := ihr hmm hragree ((2 ^ i) >>> 1) hmrec
        cases l with
        | nil =>
          refine ⟨en, by simp [ibt_search_rec, hbit, he], hkey, ?_⟩
          simp only [ibt_show_rec]
          exact List.mem_append_right _ hmem2
        | node d f g =>
          refine ⟨en, by simp [ibt_search_rec, hbit, he], hkey, ?_⟩
          simp only [ibt_show_rec]
          exact List.mem_append_right _ hmem2

theorem mod_two_of_testBit_false {k : Nat} (h : k.testBit 0 = false) :
    k % 2 = 0 := by
  rw [Nat.testBit_to_div_mod] at h
  simp at h
  omega

theorem mod_two_of_testBit_true {k : Nat} (h : k.testBit 0 = true) :
    k % 2 = 1 := by
  rw [Nat.testBit_to_div_mod] at h
  simp at h
  omega

theorem mbLoop_spec : ∀ (i : Nat) {key1 key2 : Nat} (val1 : Nat) (entry2 : Entry)
    (fuel : Nat), i < fuel →
    key1 / 2 ^ (i + 1) = key2 / 2 ^ (i + 1) → key1 ≠ key2 →
    key1 < 2 ^ 32 → key2 < 2 ^ 32 → entry2.key = key2 →
    ∃ sub nc bh, mbLoop fuel key1 key2 (2 ^ i) val1 entry2 = some (sub, nc, bh) ∧
      TrieInv sub (i + 1) ∧ sub ≠ .nil ∧
      (∀ k, k ∈ keys sub ↔ k = key1 ∨ k = key2) ∧ nc ≤ i + 2 := by
  intro i
  induction i with
  | zero =>
    intro key1 key2 val1 entry2 fuel hfuel hdiv hne h1 h2 hek
    obtain ⟨f, rfl⟩ : ∃ f, fuel = f + 1 := ⟨fuel - 1, by omega⟩
    have hbne : key1.testBit 0 ≠ key2.testBit 0 := by
      intro hbeq
      exact hne (by simpa using div_pow_eq_of_testBit_eq hdiv hbeq)
    have hbitne : ¬key1 &&& 2 ^ 0 = key2 &&& 2 ^ 0 := by
      rw [and_pow2_eq_iff]; exact hbne
    rcases hb1 : key1.testBit 0 with _ | _
    · have hb2 : key2.testBit 0 = true := by
        rcases h : key2.testBit 0 with _ | _
        · exact absurd (hb1.trans h.symm) hbne
        · rfl
      have hbit1 : key1 &&& 2 ^ 0 = 0 := (and_pow2_eq_zero_iff _ _).mpr hb1
      refine ⟨.node none (ibt_make_leaf (ibt_make_entry key1 val1))
        (ibt_make_leaf entry2), 2, 1, ?_, ?_, by simp, ?_, by omega⟩
      · have hm1 : key1 % 2 = 0 := mod_two_of_testBit_false hb1
        have hm2 : key2 % 2 = 1 := mod_two_of_testBit_true hb2
        simp [mbLoop, hm1, hm2]
      · refine TrieInv.branch _ _ 0 (Or.inl (by simp [ibt_make_leaf])) ?_ ?_ ?_ ?_
        · intro k hk
          simp [ibt_make_leaf, ibt_make_entry, keys_leaf] at hk
          rw [hk]; exact hb1
        · intro k hk
          simp [ibt_make_leaf, keys_leaf, hek] at hk
          rw [hk]; exact hb2
        · exact TrieInv.leaf _ 0 (by simpa [ibt_make_entry] using h1)
        · exact TrieInv.leaf _ 0 (by rw [hek]; exact h2)
      · intro k
        simp [keys_node_none, ibt_make_leaf, ibt_make_entry, keys_leaf, hek]
    · have hb2 : key2.testBit 0 = false := by
        rcases h : key2.testBit 0 with _ | _
        · rfl
        · exact absurd (hb1.trans h.symm) hbne
      have hbit1 : ¬key1 &&& 2 ^ 0 = 0 := by
        rw [and_pow2_eq_zero_iff, hb1]; simp
      refine ⟨.node none (ibt_make_leaf entry2)
        (ibt_make_leaf (ibt_make_entry key1 val1)), 2, 1, ?_, ?_, by simp, ?_, by omega⟩
      · have hm1 : key1 % 2 = 1 := mod_two_of_testBit_true hb1
        have hm2 : key2 % 2 = 0 := mod_two_of_testBit_false hb2
        simp [mbLoop, hm1, hm2]
      · refine TrieInv.branch _ _ 0 (Or.inl (by simp [ibt_make_leaf])) ?_ ?_ ?_ ?_
        · intro k hk
          simp [ibt_make_leaf, keys_leaf, hek] at hk
          rw [hk]; exact hb2
        · intro k hk
          simp [ibt_make_leaf, ibt_make_entry, keys_leaf] at hk
          rw [hk]; exact hb1
        · exact TrieInv.leaf _ 0 (by rw [hek]; exact h2)
        · exact TrieInv.leaf _ 0 (by simpa [ibt_make_entry] using h1)
      · intro k
        simp [keys_node_none, ibt_make_leaf, ibt_make_entry, keys_leaf, hek]
        tauto
  | succ j ih =>
    intro key1 key2 val1 entry2 fuel hfuel hdiv hne h1 h2 hek
    obtain ⟨f, rfl⟩ : ∃ f, fuel = f + 1 := ⟨fuel - 1, by omega⟩
    have hj : j < f := by omega
    have hs : (2 ^ (j + 1)) >>> 1 = 2 ^ j := pow2_shiftRight j
    by_cases hbeq : key1.testBit (j + 1) = key2.testBit (j + 1)
    · have hdiv' : key1 / 2 ^ (j + 1) = key2 / 2 ^ (j + 1) :=
        div_pow_eq_of_testBit_eq hdiv hbeq
      obtain ⟨sub, nc, bh, heq, hInv, hsne, hkeys, hnc⟩ :=
        ih val1 entry2 f hj hdiv' hne h1 h2 hek
      have hbiteq : key1 &&& 2 ^ (j + 1) = key2 &&& 2 ^ (j + 1) :=
        (and_pow2_eq_iff _ _ _).mpr hbeq
      rcases hb1 : key1.testBit (j + 1) with _ | _
      · have hbit1 : key1 &&& 2 ^ (j + 1) = 0 := (and_pow2_eq_zero_iff _ _).mpr hb1
        refine ⟨.node none sub .nil, nc + 1, bh + 1, ?_, ?_, by simp, ?_, by omega⟩
        · have hbit2 : key2 &&& 2 ^ (j + 1) = 0 := by rw [← hbiteq]; exact hbit1
          simp [mbLoop, (Nat.two_pow_pos (j + 1)).ne', hs, heq, hbit1, hbit2]
        · refine TrieInv.branch sub .nil (j + 1) (Or.inl hsne) ?_
            (by simp [keys_nil]) hInv (TrieInv.nil (j + 1))
          intro k hk
          rcases (hkeys k).mp hk with rfl | rfl
          · exact hb1
          · rw [← hbeq]; exact hb1
        · intro k
          rw [keys_node_none]
          simp [keys_nil, hkeys k]
      · have hbit1 : ¬key1 &&& 2 ^ (j + 1) = 0 := by
          rw [and_pow2_eq_zero_iff, hb1]; simp
        refine ⟨.node none .nil sub, nc + 1, bh + 1, ?_, ?_, by simp, ?_, by omega⟩
        · have hbit2 : ¬key2 &&& 2 ^ (j + 1) = 0 := by rw [← hbiteq]; exact hbit1
          simp [mbLoop, (Nat.two_pow_pos (j + 1)).ne', hbiteq, hs, heq, hbit2]
        · refine TrieInv.branch .nil sub (j + 1) (Or.inr hsne)
            (by simp [keys_nil]) ?_ (TrieInv.nil (j + 1)) hInv
          intro k hk
          rcases (hkeys k).mp hk with rfl | rfl
          · exact hb1
          · rw [← hbeq]; exact hb1
        · intro k
          rw [keys_node_none]
          simp [keys_nil, hkeys k]
    · have hbitne : ¬key1 &&& 2 ^ (j + 1) = key2 &&& 2 ^ (j + 1) := by
        rw [and_pow2_eq_iff]; exact hbeq
      rcases hb1 : key1.testBit (j + 1) with _ | _
      · have hb2 : key2.testBit (j + 1) = true := by
          rcases h : key2.testBit (j + 1) with _ | _
          · exact absurd (hb1.trans h.symm) hbeq
          · rfl
        have hbit1 : key1 &&& 2 ^ (j + 1) = 0 := (and_pow2_eq_zero_iff _ _).mpr hb1
        refine ⟨.node none (ibt_make_leaf (ibt_make_entry key1 val1))
          (ibt_make_leaf entry2), 2, 1, ?_, ?_, by simp, ?_, by omega⟩
        · have hbit2 : ¬key2 &&& 2 ^ (j + 1) = 0 := by
            rw [and_pow2_eq_zero_iff, hb2]; simp
          have hbit2s : ¬(0 : Nat) = key2 &&& 2 ^ (j + 1) := fun h => hbit2 h.symm
          simp [mbLoop, (Nat.two_pow_pos (j + 1)).ne', hbitne, hbit1, hbit2, hbit2s]
        · refine TrieInv.branch _ _ (j + 1) (Or.inl (by simp [ibt_make_leaf])) ?_ ?_ ?_ ?_
          · intro k hk
            simp [ibt_make_leaf, ibt_make_entry, keys_leaf] at hk
            rw [hk]; exact hb1
          · intro k hk
            simp [ibt_make_leaf, keys_leaf, hek] at hk
            rw [hk]; exact hb2
          · exact TrieInv.leaf _ (j + 1) (by simpa [ibt_make_entry] using h1)
          · exact TrieInv.leaf _ (j + 1) (by rw [hek]; exact h2)
        · intro k
          simp [keys_node_none, ibt_make_leaf, ibt_make_entry, keys_leaf, hek]
      · have hb2 : key2.testBit (j + 1) = false := by
          rcases h : key2.testBit (j + 1) with _ | _
          · rfl
          · exact absurd (hb1.trans h.symm) hbeq
        have hbit1 : ¬key1 &&& 2 ^ (j + 1) = 0 := by
          rw [and_pow2_eq_zero_iff, hb1]; simp
        refine ⟨.node none (ibt_make_leaf entry2)
          (ibt_make_leaf (ibt_make_entry key1 val1)), 2, 1, ?_, ?_, by simp, ?_, by omega⟩
        · have hbit2 : key2 &&& 2 ^ (j + 1) = 0 := (and_pow2_eq_zero_iff _ _).mpr hb2
          have hbit1s : ¬(0 : Nat) = key1 &&& 2 ^ (j + 1) := fun h => hbit1 h.symm
          simp [mbLoop, (Nat.two_pow_pos (j + 1)).ne', hbitne, hbit1, hbit1s, hbit2]
        · refine TrieInv.branch _ _ (j + 1) (Or.inl (by simp [ibt_make_leaf])) ?_ ?_ ?_ ?_
          · intro k hk
            simp [ibt_make_leaf, keys_leaf, hek] at hk
            rw [hk]; exact hb2
          · intro k hk
            simp [ibt_make_leaf, ibt_make_entry, keys_leaf] at hk
            rw [hk]; exact hb1
          · exact TrieInv.leaf _ (j + 1) (by rw [hek]; exact h2)
          · exact TrieInv.leaf _ (j + 1) (by simpa [ibt_make_entry] using h1)
        · intro k
          simp [keys_node_none, ibt_make_leaf, ibt_make_entry, keys_leaf, hek]
          tauto

theorem ibt_make_branch_spec {i key1 key2 : Nat} (val1 : Nat) (entry2 : Entry)
    (hdiv : key1 / 2 ^ (i + 1) = key2 / 2 ^ (i + 1)) (hne : key1 ≠ key2)
    (h1 : key1 < 2 ^ 32) (h2 : key2 < 2 ^ 32) (hek : entry2.key = key2) :
    ∃ sub nc bh,
      ibt_make_branch key1 key2 (2 ^ i) val1 entry2 = some (sub, nc, bh) ∧
      TrieInv sub (i + 1) ∧ sub ≠ .nil ∧
      (∀ k, k ∈ keys sub ↔ k = key1 ∨ k = key2) ∧ nc ≤ i + 2 :=
  mbLoop_spec i val1 entry2 (2 ^ i + 1)
    (Nat.lt_succ_of_lt (Nat.lt_two_pow i)) hdiv hne h1 h2 hek

theorem ibt_insert_iter_spec : ∀ {n : ONode} {i : Nat}, TrieInv n i →
    ∀ {key : Nat} (value : Nat), n ≠ .nil → key < 2 ^ 32 →
    (∀ k ∈ keys n, k / 2 ^ i = key / 2 ^ i) →
    ∀ m : Nat, (∀ j, i = j + 1 → m = 2 ^ j) →
    ∃ n' nc bh, ibt_insert_iter n key value m = some (n', nc, bh) ∧
      TrieInv n' i ∧ n' ≠ .nil ∧ nc ≤ i + 1 ∧
      (∀ k, k ∈ keys n' ↔ k ∈ keys n ∨ k = key) ∧
      (key ∈ keys n → n' = n ∧ nc = 0) := by
  intro n i h
  induction h with
  | nil => intro key value hne _ _ _ _; exact absurd rfl hne
  | leaf en i hk =>
    intro key value hne hklt hagree m hm
    by_cases hkey : key = en.key
    · refine ⟨.node (some en) .nil .nil, 0, 0, ?_, TrieInv.leaf en i hk,
        by simp, by omega, ?_, fun _ => ⟨rfl, rfl⟩⟩
      · simp [ibt_insert_iter, hkey]
      · intro k
        rw [keys_leaf]
        subst hkey
        simp
    · cases i with
      | zero =>
        exfalso
        have hagr := hagree en.key (by rw [keys_leaf]; simp)
        simp at hagr
        exact hkey hagr.symm
      | succ j =>
        have hmask : m = 2 ^ j := hm j rfl
        subst hmask
        have hdiv : key / 2 ^ (j + 1) = en.key / 2 ^ (j + 1) :=
          (hagree en.key (by rw [keys_leaf]; simp)).symm
        obtain ⟨sub, nc, bh, heq, hInv, hsne, hkeys, hnc⟩ :=
          ibt_make_branch_spec value en hdiv hkey hklt hk rfl
        refine ⟨sub, nc, bh, ?_, hInv, hsne, by omega, ?_, ?_⟩
        · simp [ibt_insert_iter, hkey, heq]
        · intro k
          rw [keys_leaf]
          simp [hkeys k]
          tauto
        · intro hmem
          rw [keys_leaf] at hmem
          simp at hmem
          exact absurd hmem hkey
  | branch l r i hne hl hr hIl hIr ihl ihr =>
    intro key value hne2 hklt hagree m hm
    have hmask : m = 2 ^ i := hm i rfl
    subst hmask
    have hmrec : ∀ j, i = j + 1 → (2 ^ i) >>> 1 = 2 ^ j := by
      intro j hj; subst hj; exact pow2_shiftRight j
    rcases hbt : key.testBit i with _ | _
    · have hbit : key &&& 2 ^ i = 0 := (and_pow2_eq_zero_iff _ _).mpr hbt
      have hlagree : ∀ k ∈ keys l, k / 2 ^ i = key / 2 ^ i := by
        intro k hkm
        exact div_pow_eq_of_testBit_eq
          (hagree k (by rw [keys_node_none]; exact List.mem_append_left _ hkm))
          (by rw [hl k hkm, hbt])
      have hnotr : key ∉ keys r := by
        intro hkm
        have hh := hr key hkm
        rw [hbt] at hh
        exact Bool.noConfusion hh
      cases l with
      | nil =>
        have hrne : r ≠ .nil := by
          rcases hne with h | h
          · exact absurd rfl h
          · exact h
        cases r with
        | nil => exact absurd rfl hrne
        | node a b c =>
          refine ⟨.node none (ibt_make_leaf (ibt_make_entry key value))
            (.node a b c), 1, 1, ?_, ?_, by simp, by omega, ?_, ?_⟩
          · simp [ibt_insert_iter, hbit]
          · refine TrieInv.branch _ _ i (Or.inl (by simp [ibt_make_leaf])) ?_ hr
              ?_ hIr
            · intro k hkm
              simp [ibt_make_leaf, ibt_make_entry, keys_leaf] at hkm
              rw [hkm]; exact hbt
            · exact TrieInv.leaf _ i (by simpa [ibt_make_entry] using hklt)
          · intro k
            rw [keys_node_none, keys_node_none]
            simp [keys_nil, ibt_make_leaf, ibt_make_entry, keys_leaf]
            tauto
          · intro hmem
            rw [keys_node_none] at hmem
            simp [keys_nil] at hmem
            exact absurd hmem hnotr
      | node a b c =>
        obtain ⟨l', nc, bh, heq, hInv', hne', hnc, hkeys, hdup⟩ :=
          ihl value (by simp) hklt hlagree ((2 ^ i) >>> 1) hmrec
        cases r with
        | nil =>
          refine ⟨.node none l' .nil, nc, bh + 1, ?_, ?_, by simp, by omega,
            ?_, ?_⟩
          · simp [ibt_insert_iter, hbit, heq]
          · refine TrieInv.branch _ _ i (Or.inl hne') ?_ hr hInv' hIr
            intro k hkm
            rcases (hkeys k).mp hkm with hh | rfl
            · exact hl k hh
            · exact hbt
          · intro k
            rw [keys_node_none, keys_node_none]
            simp [keys_nil, hkeys k]
          · intro hmem
            rw [keys_node_none] at hmem
            simp [keys_nil] at hmem
            obtain ⟨rfl, rfl⟩ := hdup hmem
            exact ⟨rfl, rfl⟩
        | node d f g =>
          refine ⟨.node none l' (.node d f g), nc, bh + 1, ?_, ?_, by simp,
            by omega, ?_, ?_⟩
          · simp [ibt_insert_iter, hbit, heq]
          · refine TrieInv.branch _ _ i (Or.inl hne') ?_ hr hInv' hIr
            intro k hkm
            rcases (hkeys k).mp hkm with hh | rfl
            · exact hl k hh
            · exact hbt
          · intro k
            rw [keys_node_none, keys_node_none]
            simp [hkeys k]
            tauto
          · intro hmem
            rw [keys_node_none] at hmem
            rcases List.mem_append.mp hmem with hmm | hmm
            · obtain ⟨rfl, rfl⟩ := hdup hmm
              exact ⟨rfl, rfl⟩
            · exact absurd hmm hnotr
    · have hbit : ¬key &&& 2 ^ i = 0 := by
        rw [and_pow2_eq_zero_iff, hbt]; simp
      have hragree : ∀ k ∈ keys r, k / 2 ^ i = key / 2 ^ i := by
        intro k hkm
        exact div_pow_eq_of_testBit_eq
          (hagree k (by rw [keys_node_none]; exact List.mem_append_right _ hkm))
          (by rw [hr k hkm, hbt])
      have hnotl : key ∉ keys l := by
        intro hkm
        have hh := hl key hkm
        rw [hbt] at hh
        exact Bool.noConfusion hh
      cases r with
      | nil =>
        have hlne : l ≠ .nil := by
          rcases hne with h | h
          · exact h
          · exact absurd rfl h
        cases l with
        | nil => exact absurd rfl hlne
        | node a b c =>
          refine ⟨.node none (.node a b c)
            (ibt_make_leaf (ibt_make_entry key value)), 1, 1, ?_, ?_, by simp,
            by omega, ?_, ?_⟩
          · simp [ibt_insert_iter, hbit]
          · refine TrieInv.branch _ _ i (Or.inl (by simp)) hl ?_ hIl ?_
            · intro k hkm
              simp [ibt_make_leaf, ibt_make_entry, keys_leaf] at hkm
              rw [hkm]; exact hbt
            · exact TrieInv.leaf _ i (by simpa [ibt_make_entry] using hklt)
          · intro k
            rw [keys_node_none, keys_node_none]
            simp [keys_nil, ibt_make_leaf, ibt_make_entry, keys_leaf]
          · intro hmem
            rw [keys_node_none] at hmem
            simp [keys_nil] at hmem
            exact absurd hmem hnotl
      | node a b c =>
        obtain ⟨r', nc, bh, heq, hInv', hne', hnc, hkeys, hdup⟩ :=
          ihr value (by simp) hklt hragree ((2 ^ i) >>> 1) hmrec
        cases l with
        | nil =>
          refine ⟨.node none .nil r', nc, bh + 1, ?_, ?_, by simp, by omega,
            ?_, ?_⟩
          · simp [ibt_insert_iter, hbit, heq]
          · refine TrieInv.branch _ _ i (Or.inr hne') hl ?_ hIl hInv'
            intro k hkm
            rcases (hkeys k).mp hkm with hh | rfl
            · exact hr k hh
            · exact hbt
          · intro k
            rw [keys_node_none, keys_node_none]
            simp [keys_nil, hkeys k]
          · intro hmem
            rw [keys_node_none] at hmem
            simp [keys_nil] at hmem
            obtain ⟨rfl, rfl⟩ := hdup hmem
            exact ⟨rfl, rfl⟩
        | node d f g =>
          refine ⟨.node none (.node d f g) r', nc, bh + 1, ?_, ?_, by simp,
            by omega, ?_, ?_⟩
          · simp [ibt_insert_iter, hbit, heq]
          · refine TrieInv.branch _ _ i (Or.inr hne') hl ?_ hIl hInv'
            intro k hkm
            rcases (hkeys k).mp hkm with hh | rfl
            · exact hr k hh
            · exact hbt
          · intro k
            rw [keys_node_none, keys_node_none]
            simp [hkeys k]
            tauto
          · intro hmem
            rw [keys_node_none] at hmem
            rcases List.mem_append.mp hmem with hmm | hmm
            · exact absurd hmm hnotl
            · obtain ⟨rfl, rfl⟩ := hdup hmm
              exact ⟨rfl, rfl⟩

theorem mask_init : 1 <<< (BITSPERWORD - 1) = 2 ^ 31 := by
  simp [BITSPERWORD, Nat.shiftLeft_eq]

theorem ibt_insert_spec : ∀ (t : TrieS) {key : Nat} (value : Nat),
    TrieInv t.root 32 → key < 2 ^ 32 →
    ∃ t', ibt_insert t key value = some t' ∧ TrieInv t'.root 32 ∧
      t'.root ≠ .nil ∧
      t'.leaf_nodes = t.leaf_nodes + 1 ∧
      t'.num_nodes ≤ t.num_nodes + 33 ∧
      (∀ k, k ∈ keys t'.root ↔ k ∈ keys t.root ∨ k = key) ∧
      (key ∈ keys t.root → t'.root = t.root ∧ t'.num_nodes = t.num_nodes) := by
  intro t key value hInv hk
  obtain ⟨root, nn, ln, ht⟩ := t
  cases root with
  | nil =>
    refine ⟨{ root := ibt_make_leaf (ibt_make_entry key value),
              num_nodes := 1, leaf_nodes := ln + 1, height := 1 },
      ?_, ?_, ?_, rfl, ?_, ?_, ?_⟩
    · simp [ibt_insert]
    · exact TrieInv.leaf _ 32 (by simpa [ibt_make_entry] using hk)
    · simp [ibt_make_leaf]
    · show (1 : Nat) ≤ nn + 33
      omega
    · intro k
      simp [ibt_make_leaf, ibt_make_entry, keys_leaf, keys_nil]
    · intro hmem
      simp [keys_nil] at hmem
  | node e l r =>
    have hagree : ∀ k ∈ keys (ONode.node e l r), k / 2 ^ 32 = key / 2 ^ 32 := by
      intro k hkm
      rw [Nat.div_eq_of_lt (keys_lt hInv k hkm), Nat.div_eq_of_lt hk]
    have hm : ∀ j, (32 : Nat) = j + 1 → (1 <<< (BITSPERWORD - 1)) = 2 ^ j := by
      intro j hj
      have hj31 : j = 31 := by omega
      subst hj31
      exact mask_init
    obtain ⟨n', nc, bh, heq, hInv', hne', hnc, hkeys, hdup⟩ :=
      ibt_insert_iter_spec hInv value (by simp) hk hagree _ hm
    refine ⟨{ root := n', num_nodes := nn + nc, leaf_nodes := ln + 1,
              height := if 1 + bh > ht then 1 + bh else ht },
      ?_, hInv', hne', rfl, ?_, hkeys, ?_⟩
    · simp [ibt_insert, heq]
    · show nn + nc ≤ nn + 33
      omega
    · intro hmem
      obtain ⟨h1, h2⟩ := hdup hmem
      exact ⟨h1, by simp [h2]⟩

theorem reachable_trieInv {t : TrieS} (h : Reachable t) : TrieInv t.root 32 := by
  induction h with
  | create => exact TrieInv.nil 32
  | insert t t' key value hr hk heq ih =>
    obtain ⟨t'', heq', hInv', _⟩ := ibt_insert_spec t value ih hk
    rw [heq] at heq'
    injection heq' with hh
    rw [hh]
    exact hInv'

theorem keys_sorted_aux : ∀ {n : ONode} {i : Nat}, TrieInv n i →
    (∀ k1 ∈ keys n, ∀ k2 ∈ keys n, k1 / 2 ^ i = k2 / 2 ^ i) →
    (keys n).Sorted (· < ·) := by
  intro n i h
  induction h with
  | nil => intro _; simp [keys_nil]
  | leaf en i hk => intro _; rw [keys_leaf]; exact List.sorted_singleton _
  | branch l r i hne hl hr hIl hIr ihl ihr =>
    intro hpair
    rw [keys_node_none]
    refine List.pairwise_append.mpr ⟨?_, ?_, ?_⟩
    · refine ihl ?_
      intro k1 h1 k2 h2
      exact div_pow_eq_of_testBit_eq
        (hpair k1 (by rw [keys_node_none]; exact List.mem_append_left _ h1)
          k2 (by rw [keys_node_none]; exact List.mem_append_left _ h2))
        (by rw [hl k1 h1, hl k2 h2])
    · refine ihr ?_
      intro k1 h1 k2 h2
      exact div_pow_eq_of_testBit_eq
        (hpair k1 (by rw [keys_node_none]; exact List.mem_append_right _ h1)
          k2 (by rw [keys_node_none]; exact List.mem_append_right _ h2))
        (by rw [hr k1 h1, hr k2 h2])
    · intro k1 h1 k2 h2
      exact lt_of_testBit_split
        (hpair k1 (by rw [keys_node_none]; exact List.mem_append_left _ h1)
          k2 (by rw [keys_node_none]; exact List.mem_append_right _ h2))
        (hl k1 h1) (hr k2 h2)

theorem keys_sorted {n : ONode} (h : TrieInv n 32) :
    (keys n).Sorted (· < ·) := by
  refine keys_sorted_aux h ?_
  intro k1 h1 k2 h2
  rw [Nat.div_eq_of_lt (keys_lt h k1 h1), Nat.div_eq_of_lt (keys_lt h k2 h2)]

theorem reach_s0 : Reachable s0 := Reachable.create

theorem reach_s1 : Reachable s1 :=
  Reachable.insert s0 s1 1 10 reach_s0 (by norm_num) (by decide)

theorem reach_s2 : Reachable s2 :=
  Reachable.insert s1 s2 3 20 reach_s1 (by norm_num) (by decide)

theorem reach_d1 : Reachable d1 :=
  Reachable.insert s0 d1 7 70 reach_s0 (by norm_num) (by decide)

theorem reach_d2 : Reachable d2 :=
  Reachable.insert d1 d2 7 71 reach_d1 (by norm_num) (by decide)

theorem reach_d3 : Reachable d3 :=
  Reachable.insert d2 d3 7 72 reach_d2 (by norm_num) (by decide)

theorem reach_z1 : Reachable z1 :=
  Reachable.insert s0 z1 0 100 reach_s0 (by norm_num) (by decide)

theorem reach_z2 : Reachable z2 :=
  Reachable.insert z1 z2 1 101 reach_z1 (by norm_num) (by decide)

/-- Claim C1: for every trie built by `ibt_create` followed by any sequence
of successful `ibt_insert` calls, every inserted key is stored (insertion
adds it to the key set and never drops existing keys), and `ibt_search`
on any stored key `k` returns the Entry whose key equals `k` — the exact
bit-descent from the root reaches exactly the leaf holding `k`. -/
theorem search_returns_inserted_key :
    ∀ (t : TrieS) (key value : Nat) (t' : TrieS),
    Reachable t → key < 2 ^ 32 → ibt_insert t key value = some t' →
    key ∈ keys t'.root ∧
    (∀ k ∈ keys t.root, k ∈ keys t'.root) ∧
    (∀ k ∈ keys t'.root,
      ∃ en, ibt_search t' k = some (.ok en) ∧ en.key = k) := by
  intro t key value t' hr hk heq
  have hr' : Reachable t' := Reachable.insert t t' key value hr hk heq
  have hInv := reachable_trieInv hr
  have hInv' := reachable_trieInv hr'
  obtain ⟨t'', heq2, _, hne'', _, _, hkeys, _⟩ := ibt_insert_spec t value hInv hk
  rw [heq] at heq2
  injection heq2 with hh
  subst hh
  refine ⟨(hkeys key).mpr (Or.inr rfl), fun k hkm => (hkeys k).mpr (Or.inl hkm), ?_⟩
  intro k hkm
  have hklt : k < 2 ^ 32 := keys_lt hInv' k hkm
  have hagree : ∀ k2 ∈ keys t'.root, k2 / 2 ^ 32 = k / 2 ^ 32 := by
    intro k2 h2
    rw [Nat.div_eq_of_lt (keys_lt hInv' k2 h2), Nat.div_eq_of_lt hklt]
  have hm : ∀ j, (32 : Nat) = j + 1 → (1 <<< (BITSPERWORD - 1)) = 2 ^ j := by
    intro j hj
    have hj31 : j = 31 := by omega
    subst hj31
    exact mask_init
  obtain ⟨root, nn, ln, ht⟩ := t'
  cases root with
  | nil => exact absurd rfl hne''
  | node e l r =>
    obtain ⟨en, hseq, hkeyeq, _⟩ := search_rec_finds hInv' hkm hagree _ hm
    exact ⟨en, by simp [ibt_search, hseq], hkeyeq⟩

/-- Claim C1 witness: inserting key 3 into the trie already holding key 1
gives a trie in which both stored keys are found exactly. -/
theorem search_returns_inserted_key_witness :
    Reachable s1 ∧ (3 : Nat) < 2 ^ 32 ∧ ibt_insert s1 3 20 = some s2 ∧
    (3 ∈ keys s2.root ∧ (∀ k ∈ keys s1.root, k ∈ keys s2.root) ∧
      (∀ k ∈ keys s2.root,
        ∃ en, ibt_search s2 k = some (.ok en) ∧ en.key = k)) :=
  ⟨reach_s1, by norm_num, by decide,
   search_returns_inserted_key s1 3 20 s2 reach_s1 (by norm_num) (by decide)⟩

/-- Claim C2: when the exact descent reaches a branch whose required child
is absent, `ibt_search_rec` diverts into closest-match mode on the other
child with bias equal to the side of the missing child (missing left
child gives bias `l`, missing right child gives bias `r`); from the
diversion point the biased descent goes into the bias-side child when
present and into the other child otherwise, and on every reachable
non-empty trie it terminates at a leaf and returns that leaf's entry. -/
theorem closest_match_bias_descent :
    (∀ (e a : Option Entry) (b c : ONode) (key mask : Nat),
      key &&& mask = 0 →
      ibt_search_rec (.node e .nil (.node a b c)) key mask =
        ibt_closest_match_rec (.node a b c) .l) ∧
    (∀ (e a : Option Entry) (b c : ONode) (key mask : Nat),
      ¬key &&& mask = 0 →
      ibt_search_rec (.node e (.node a b c) .nil) key mask =
        ibt_closest_match_rec (.node a b c) .r) ∧
    (∀ (e : Option Entry) (l r : ONode), (l ≠ .nil ∨ r ≠ .nil) →
      (l ≠ .nil → ibt_closest_match_rec (.node e l r) .l =
        ibt_closest_match_rec l .l) ∧
      (l = .nil → ibt_closest_match_rec (.node e l r) .l =
        ibt_closest_match_rec r .l) ∧
      (r ≠ .nil → ibt_closest_match_rec (.node e l r) .r =
        ibt_closest_match_rec r .r) ∧
      (r = .nil → ibt_closest_match_rec (.node e l r) .r =
        ibt_closest_match_rec l .r)) ∧
    (∀ (t : TrieS) (b : Bias), Reachable t → t.root ≠ .nil →
      ∃ en, ibt_closest_match_rec t.root b = some en ∧
        en ∈ leafEntries t.root) := by
  refine ⟨?_, ?_, ?_, ?_⟩
  · intro e a b c key mask hbit
    simp [ibt_search_rec, hbit]
  · intro e a b c key mask hbit
    simp [ibt_search_rec, hbit]
  · intro e l r hor
    refine ⟨?_, ?_, ?_, ?_⟩
    · intro hl
      cases l with
      | nil => exact absurd rfl hl
      | node a b c => cases r <;> simp [ibt_closest_match_rec]
    · intro hl
      subst hl
      have hr : r ≠ .nil := by
        rcases hor with h | h
        · exact absurd rfl h
        · exact h
      cases r with
      | nil => exact absurd rfl hr
      | node a b c => simp [ibt_closest_match_rec]
    · intro hr
      cases r with
      | nil => exact absurd rfl hr
      | node a b c => cases l <;> simp [ibt_closest_match_rec]
    · intro hr
      subst hr
      have hl : l ≠ .nil := by
        rcases hor with h | h
        · exact h
        · exact absurd rfl h
      cases l with
      | nil => exact absurd rfl hl
      | node a b c => simp [ibt_closest_match_rec]
  · intro t b hr hne
    obtain ⟨en, he, hm1, _⟩ := closest_match_spec (reachable_trieInv hr) b hne
    exact ⟨en, he, hm1⟩

/-- Claim C2 witness: a concrete diversion (left child missing at a
branch, bias `l`) and a concrete biased descent reaching a leaf. -/
theorem closest_match_bias_descent_witness :
    ((2 : Nat) &&& 2 ^ 31 = 0) ∧
    (ibt_search_rec (.node none .nil (.node (some ⟨70, 7⟩) .nil .nil)) 2 (2 ^ 31) =
      ibt_closest_match_rec (.node (some ⟨70, 7⟩) .nil .nil) .l) ∧
    Reachable s2 ∧ s2.root ≠ .nil ∧
    (∃ en, ibt_closest_match_rec s2.root .l = some en ∧
      en ∈ leafEntries s2.root) :=
  ⟨by decide,
   closest_match_bias_descent.1 none (some ⟨70, 7⟩) .nil .nil 2 (2 ^ 31) (by decide),
   reach_s2, by decide,
   closest_match_bias_descent.2.2.2 s2 .l reach_s2 (by decide)⟩

/-- Claim C3: in every reachable trie, every node is either a leaf (an
entry and no children) or a branch (no entry and at least one child);
the shape is preserved by every successful insertion, and it makes the
closest-match descent terminate at a leaf. -/
theorem leaf_branch_invariant :
    ∀ t : TrieS, Reachable t →
    WellShaped t.root ∧
    (∀ (key value : Nat) (t' : TrieS), key < 2 ^ 32 →
      ibt_insert t key value = some t' → WellShaped t'.root) ∧
    (∀ b : Bias, t.root ≠ .nil →
      ∃ en, ibt_closest_match_rec t.root b = some en ∧
        en ∈ leafEntries t.root) := by
  intro t hr
  refine ⟨trieInv_wellShaped (reachable_trieInv hr), ?_, ?_⟩
  · intro key value t' hk heq
    exact trieInv_wellShaped
      (reachable_trieInv (Reachable.insert t t' key value hr hk heq))
  · intro b hne
    obtain ⟨en, he, hm, _⟩ := closest_match_spec (reachable_trieInv hr) b hne
    exact ⟨en, he, hm⟩

/-- Claim C3 witness: the shape predicate at a concrete reachable trie,
its preservation across a concrete insert, and leaf termination of the
biased descent there. -/
theorem leaf_branch_invariant_witness :
    Reachable s1 ∧ WellShaped s1.root ∧ WellShaped s2.root ∧
    (∃ en, ibt_closest_match_rec s1.root .r = some en ∧
      en ∈ leafEntries s1.root) :=
  ⟨reach_s1, (leaf_branch_invariant s1 reach_s1).1,
   (leaf_branch_invariant s1 reach_s1).2.1 3 20 s2 (by norm_num) (by decide),
   (leaf_branch_invariant s1 reach_s1).2.2 .r (by decide)⟩

/-- Claim C4 counterexample: inserting key 7 twice into a fresh trie.
After the duplicate insertion `ibt_node_count` is not unchanged — it
wraps from 0 to `2 ^ 64 - 1`, because `leaf_nodes` grew while
`num_nodes` did not. -/
theorem duplicate_insert_counters_cex :
    ibt_insert s0 7 70 = some d1 ∧ ibt_insert d1 7 71 = some d2 ∧
    ibt_node_count d1 = 0 ∧ ibt_node_count d2 = 2 ^ 64 - 1 ∧
    ibt_node_count d2 ≠ ibt_node_count d1 ∧
    ibt_size d2 = ibt_size d1 + 1 :=
  ⟨by decide, by decide, by decide, by decide, by decide, by decide⟩

/-- Claim C4 (amended): re-inserting a key that is already present leaves
the tree and the `num_nodes` counter unchanged (no node or entry is
created) and increases `size()` by 1, but `node_count()` is not
unchanged: it decreases by 1 modulo `2 ^ 64`. -/
theorem duplicate_insert_counters :
    ∀ (t : TrieS) (key value : Nat) (t' : TrieS),
    Reachable t → key ∈ keys t.root → ibt_insert t key value = some t' →
    t'.root = t.root ∧ t'.num_nodes = t.num_nodes ∧
    ibt_size t' = ibt_size t + 1 ∧
    ibt_node_count t' =
      (((ibt_node_count t : Int) - 1) % (SIZE_T_MOD : Int)).toNat := by
  intro t key value t' hr hmem heq
  have hInv := reachable_trieInv hr
  have hk : key < 2 ^ 32 := keys_lt hInv key hmem
  obtain ⟨t'', heq2, _, _, hleaf, _, _, hdup⟩ := ibt_insert_spec t value hInv hk
  rw [heq] at heq2
  injection heq2 with hh
  subst hh
  obtain ⟨hroot, hnum⟩ := hdup hmem
  refine ⟨hroot, hnum, by simp [ibt_size, hleaf], ?_⟩
  have hM : ((SIZE_T_MOD : Nat) : Int) = 18446744073709551616 := by
    norm_num [SIZE_T_MOD]
  simp only [ibt_node_count, hnum, hleaf, hM]
  push_cast
  omega

/-- Claim C4 witness: the amended statement at the concrete duplicate
insertion of key 7. -/
theorem duplicate_insert_counters_witness :
    Reachable d1 ∧ (7 : Nat) ∈ keys d1.root ∧ ibt_insert d1 7 71 = some d2 ∧
    (d2.root = d1.root ∧ d2.num_nodes = d1.num_nodes ∧
      ibt_size d2 = ibt_size d1 + 1 ∧
      ibt_node_count d2 =
        (((ibt_node_count d1 : Int) - 1) % (SIZE_T_MOD : Int)).toNat) :=
  ⟨reach_d1, by decide, by decide,
   duplicate_insert_counters d1 7 71 d2 reach_d1 (by decide) (by decide)⟩

/-- Claim C5 counterexample: after inserting `0x00000001` and then
`0x00000003` into a fresh trie, `height()` is not 31. -/
theorem two_key_height_example_cex :
    ibt_insert s0 1 10 = some s1 ∧ ibt_insert s1 3 20 = some s2 ∧
    ibt_height s2 ≠ 31 :=
  ⟨by decide, by decide, by decide⟩

/-- Claim C5 (amended): after inserting `0x00000001` and then
`0x00000003` into a fresh trie, `height()` equals 32 (the branch-height
counter starts at 1 at the root and is incremented at each of the 30
shared levels and once at the divergence level). -/
theorem two_key_height_example :
    ibt_insert s0 1 10 = some s1 ∧ ibt_insert s1 3 20 = some s2 ∧
    ibt_height s2 = 32 :=
  ⟨by decide, by decide, by decide⟩

/-- Claim C6 counterexample: inserting key 1 into the trie that holds only
key 0 creates 33 nodes in one insertion (31 chain branches plus two
leaves), so a single insert can increase `num_nodes` by far more
than 2. -/
theorem insert_node_creation_bound_cex :
    ibt_insert s0 0 100 = some z1 ∧ ibt_insert z1 1 101 = some z2 ∧
    z2.num_nodes = z1.num_nodes + 33 ∧ ¬z2.num_nodes ≤ z1.num_nodes + 2 :=
  ⟨by decide, by decide, by decide, by decide⟩

/-- Claim C6 (amended): every successful insertion into a reachable trie
increases the total-nodes-created counter `num_nodes` by at most 33
(`BITSPERWORD + 1`: up to 31 single-child branch levels plus the two
leaves at the divergence bit, or a single fresh leaf). -/
theorem insert_node_creation_bound :
    ∀ (t : TrieS) (key value : Nat) (t' : TrieS),
    Reachable t → key < 2 ^ 32 → ibt_insert t key value = some t' →
    t'.num_nodes ≤ t.num_nodes + 33 := by
  intro t key value t' hr hk heq
  obtain ⟨t'', heq2, _, _, _, hnum, _, _⟩ :=
    ibt_insert_spec t value (reachable_trieInv hr) hk
  rw [heq] at heq2
  injection heq2 with hh
  subst hh
  exact hnum

/-- Claim C6 witness: the bound at the worst-case concrete insertion
(keys 0 then 1, diverging at bit 0). -/
theorem insert_node_creation_bound_witness :
    Reachable z1 ∧ (1 : Nat) < 2 ^ 32 ∧ ibt_insert z1 1 101 = some z2 ∧
    z2.num_nodes ≤ z1.num_nodes + 33 :=
  ⟨reach_z1, by norm_num, by decide,
   insert_node_creation_bound z1 1 101 z2 reach_z1 (by norm_num) (by decide)⟩

/-- Claim C7: searching a trie whose root is absent takes the
EmptyTrieError path — the C code prints the error, destroys the trie
with `ibt_destroy` and terminates the process with `exit(EXIT_FAILURE)`
(all folded into the `emptyTrieError` outcome here) — and no Entry is
ever returned. -/
theorem search_empty_trie_fatal :
    ∀ (t : TrieS) (key : Nat), t.root = .nil →
    ibt_search t key = some .emptyTrieError ∧
    ∀ en : Entry, ibt_search t key ≠ some (.ok en) := by
  intro t key hroot
  obtain ⟨root, nn, ln, ht⟩ := t
  have hroot2 : root = .nil := hroot
  subst hroot2
  refine ⟨rfl, ?_⟩
  intro en h
  simp [ibt_search] at h

/-- Claim C7 witness: searching the freshly created empty trie. -/
theorem search_empty_trie_fatal_witness :
    s0.root = .nil ∧ ibt_search s0 5 = some .emptyTrieError ∧
    (∀ en : Entry, ibt_search s0 5 ≠ some (.ok en)) :=
  ⟨rfl, (search_empty_trie_fatal s0 5 rfl).1, (search_empty_trie_fatal s0 5 rfl).2⟩

/-- Claim C8: on every reachable non-empty trie, `ibt_search` returns
(for any key) a valid Entry that is stored in the trie, sitting at a
leaf.  In this embedding `ibt_search` is a pure function of the trie
value: it takes the `TrieS` state and produces only an outcome, so no
node, entry, counter or callback is mutated and no allocation occurs by
construction. -/
theorem search_total_no_mutation :
    ∀ (t : TrieS) (key : Nat), Reachable t → t.root ≠ .nil →
    ∃ en, ibt_search t key = some (.ok en) ∧
      en ∈ ibt_show_rec t.root ∧ en ∈ leafEntries t.root := by
  intro t key hr hne
  have hInv := reachable_trieInv hr
  obtain ⟨root, nn, ln, ht⟩ := t
  cases root with
  | nil => exact absurd rfl hne
  | node e l r =>
    obtain ⟨en, he, hm1, hm2⟩ :=
      search_rec_total hInv key (1 <<< (BITSPERWORD - 1)) (by simp)
    exact ⟨en, by simp [ibt_search, he], hm2, hm1⟩

/-- Claim C8 witness: a miss query (key 2) on the trie holding keys 1
and 3 still returns a stored leaf entry. -/
theorem search_total_no_mutation_witness :
    Reachable s2 ∧ s2.root ≠ .nil ∧
    (∃ en, ibt_search s2 2 = some (.ok en) ∧
      en ∈ ibt_show_rec s2.root ∧ en ∈ leafEntries s2.root) :=
  ⟨reach_s2, by decide, search_total_no_mutation s2 2 reach_s2 (by decide)⟩

/-- Claim C9: on every reachable trie, `ibt_show` performs the in-order
traversal (left subtree, own entry if present, right subtree, which is
exactly `ibt_show_rec` from the root), the display callback is invoked
exactly once per stored entry (the visit list has no duplicates), and
the keys appear in strictly ascending numeric order. -/
theorem show_inorder_sorted :
    ∀ t : TrieS, Reachable t →
    ibt_show t = ibt_show_rec t.root ∧
    ((ibt_show t).map Entry.key).Sorted (· < ·) ∧
    (ibt_show t).Nodup := by
  intro t hr
  have hs : ((ibt_show t).map Entry.key).Sorted (· < ·) :=
    keys_sorted (reachable_trieInv hr)
  exact ⟨rfl, hs, List.Nodup.of_map Entry.key hs.nodup⟩

/-- Claim C9 witness: the traversal of the trie holding keys 1 and 3. -/
theorem show_inorder_sorted_witness :
    Reachable s2 ∧
    (ibt_show s2 = ibt_show_rec s2.root ∧
      ((ibt_show s2).map Entry.key).Sorted (· < ·) ∧ (ibt_show s2).Nodup) :=
  ⟨reach_s2, show_inorder_sorted s2 reach_s2⟩

/-- Claim C10: `ibt_node_count` is the `size_t` (modulo `2 ^ 64`)
subtraction `num_nodes - leaf_nodes`, where `leaf_nodes` is incremented
by every insert call (duplicates included) while `num_nodes` counts only
nodes actually created; inserting the same key three times into a fresh
trie makes `leaf_nodes` (3) exceed `num_nodes` (1), so `ibt_node_count`
wraps around to `2 ^ 64 - 2` instead of the true internal-node count 0. -/
theorem node_count_wraparound :
    (∀ t : TrieS, ibt_node_count t =
      (((t.num_nodes : Int) - (t.leaf_nodes : Int)) % (SIZE_T_MOD : Int)).toNat) ∧
    (∀ (t : TrieS) (key value : Nat) (t' : TrieS),
      ibt_insert t key value = some t' → t'.leaf_nodes = t.leaf_nodes + 1) ∧
    Reachable d3 ∧ d3.num_nodes = 1 ∧ d3.leaf_nodes = 3 ∧
    d3.num_nodes < d3.leaf_nodes ∧
    ibt_node_count d3 = 2 ^ 64 - 2 := by
  refine ⟨fun t => rfl, ?_, reach_d3, by decide, by decide, by decide, by decide⟩
  intro t key value t' heq
  obtain ⟨root, nn, ln, ht⟩ := t
  cases root with
  | nil =>
    simp [ibt_insert] at heq
    rw [← heq]
  | node e l r =>
    simp only [ibt_insert] at heq
    rcases hit : ibt_insert_iter (.node e l r) key value
        (1 <<< (BITSPERWORD - 1)) with _ | ⟨n', nc, bh⟩
    · rw [hit] at heq
      simp at heq
    · rw [hit] at heq
      simp at heq
      rw [← heq]

/-- Claim C10 witness: the unconditional `leaf_nodes` increment at the
third (duplicate) insertion of key 7. -/
theorem node_count_wraparound_witness :
    ibt_insert d2 7 72 = some d3 ∧ d3.leaf_nodes = d2.leaf_nodes + 1 :=
  ⟨by decide, node_count_wraparound.2.1 d2 7 72 d3 (by decide)⟩
